import Mathlib

/-!
Verification of the SRT-to-clean-text transformer
(`src/lambda/text-processor/lambda_function.py`).

Strings are modelled as `List Char`.  Each Python operation used by the
transformer is embedded as an executable Lean function:

* `pyStrip`          — `str.strip()` (both-ends whitespace trim);
* `collapseWSAux`    — `re.sub(r'\s+', ' ', text)` (each maximal whitespace
                       run replaced by one space);
* `splitWSAux`       — `str.split()` with no separator (split on whitespace
                       runs, dropping empty pieces);
* `splitOnNl`        — `str.split('\n')` (empty pieces kept);
* `pyJoin`           — `sep.join(pieces)`;
* `rtAux`            — `re.sub(r'<[^>]+>', '', text)` and
                       `re.sub(r'\x7b[^\x7d]+\x7d', '', text)`: removal of a
                       delimited group requiring a non-empty interior that
                       excludes the closing delimiter (newlines allowed);
* `rdAux`            — `re.sub(r'\[.*?\]', '', text)` and
                       `re.sub(r'\(.*?\)', '', text)`: lazy shortest-match
                       removal, where `.` does not cross a newline and the
                       interior may be empty;
* `removeSpeakerLabel` — `re.sub(r'^Speaker \d+:\s*', '', text)`;
* `sbAux`            — `re.split(r'\n\s*\n', text)`: the separator is a
                       newline, a greedy run of whitespace, and a final
                       newline (so a match consumes from the first to the
                       last newline of a whitespace run containing at least
                       two newlines).
-/

/-- Python's whitespace class (`\s`, `str.strip`, `str.split`), ASCII part:
space, tab, newline, carriage return, vertical tab, form feed. -/
def pyIsSpace (c : Char) : Bool :=
  c == ' ' || c == '\t' || c == '\n' || c == '\r' || c == '\x0b' || c == '\x0c'

/-- `str.strip()`: drop whitespace from both ends. -/
def pyStrip (l : List Char) : List Char :=
  ((l.dropWhile pyIsSpace).reverse.dropWhile pyIsSpace).reverse

/-- `re.sub(r'\s+', ' ', text)`: every maximal run of whitespace becomes a
single space.  The flag records whether we are inside a run whose
replacement space has already been emitted. -/
def collapseWSAux : Bool → List Char → List Char
  | _, [] => []
  | inRun, c :: cs =>
    if pyIsSpace c then
      if inRun then collapseWSAux true cs else ' ' :: collapseWSAux true cs
    else c :: collapseWSAux false cs

/-- `re.sub(r'\s+', ' ', text)` from the initial (outside-a-run) state. -/
def collapseWS (l : List Char) : List Char :=
  collapseWSAux false l

/-- `str.split()`: split on whitespace runs, keeping only non-empty words.
`acc` is the word currently being read, reversed. -/
def splitWSAux : List Char → List Char → List (List Char)
  | [], acc => if acc.isEmpty then [] else [acc.reverse]
  | c :: cs, acc =>
    if pyIsSpace c then
      if acc.isEmpty then splitWSAux cs [] else acc.reverse :: splitWSAux cs []
    else splitWSAux cs (c :: acc)

/-- `str.split()` with no separator. -/
def pySplitWS (l : List Char) : List (List Char) :=
  splitWSAux l []

/-- `str.split('\n')`: split at every newline, keeping empty pieces. -/
def splitOnNl : List Char → List (List Char)
  | [] => [[]]
  | c :: cs =>
    if c = '\n' then [] :: splitOnNl cs
    else
      match splitOnNl cs with
      | [] => [[c]]
      | l :: ls => (c :: l) :: ls

/-- `sep.join(pieces)`. -/
def pyJoin (sep : List Char) : List (List Char) → List Char
  | [] => []
  | [x] => x
  | x :: xs => x ++ sep ++ pyJoin sep xs

/-- Engine for `re.sub(r'<[^>]+>', '', text)` (and the `\x7b[^\x7d]+\x7d`
variant): at an opening delimiter, the lazy scan over non-closer characters
must be non-empty before the closer.  `st = none` means we are scanning
outside any candidate group; `st = some pending` means `pending.reverse`
holds the opener and the interior read so far (which never contains the
closer).  On `op` immediately followed by `cl` the pattern fails at `op`
(empty interior) and scanning resumes at `cl`; if input ends inside a
candidate group, no later closer exists for any opener in it, so the pending
characters are emitted unchanged. -/
def rtAux (op cl : Char) : List Char → Option (List Char) → List Char
  | [], none => []
  | [], some pending => pending.reverse
  | c :: cs, none =>
    if c = op then rtAux op cl cs (some [c])
    else c :: rtAux op cl cs none
  | c :: cs, some pending =>
    if c = cl then
      if pending.length = 1 then pending.reverse ++ c :: rtAux op cl cs none
      else rtAux op cl cs none
    else rtAux op cl cs (some (c :: pending))

/-- `re.sub(r'<[^>]+>', '', text)`. -/
def removeTags (l : List Char) : List Char :=
  rtAux '<' '>' l none

/-- `re.sub(r'\x7b[^\x7d]+\x7d', '', text)` — subtitle formatting codes. -/
def removeFormatCodes (l : List Char) : List Char :=
  rtAux (Char.ofNat 123) (Char.ofNat 125) l none

/-- Engine for `re.sub(r'\[.*?\]', '', text)` (and the parenthesis variant):
lazy shortest match from an opener to the next closer, with `.` unable to
cross a newline and an interior that may be empty.  `st = some pending`
means `pending.reverse` holds the opener and interior read so far (never
containing the closer).  A newline aborts the candidate match — and every
opener inside `pending` likewise has no closer before that newline, so the
pending characters are emitted unchanged; the same holds at end of input. -/
def rdAux (op cl : Char) : List Char → Option (List Char) → List Char
  | [], none => []
  | [], some pending => pending.reverse
  | c :: cs, none =>
    if c = op then rdAux op cl cs (some [c])
    else c :: rdAux op cl cs none
  | c :: cs, some pending =>
    if c = cl then rdAux op cl cs none
    else if c = '\n' then pending.reverse ++ c :: rdAux op cl cs none
    else rdAux op cl cs (some (c :: pending))

/-- `re.sub(r'\[.*?\]', '', text)`. -/
def removeBrackets (l : List Char) : List Char :=
  rdAux '[' ']' l none

/-- `re.sub(r'\(.*?\)', '', text)`. -/
def removeParens (l : List Char) : List Char :=
  rdAux '(' ')' l none

/-- After the literal prefix `Speaker` and a space: one or more digits, a
colon, then greedy whitespace (`\d+:\s*`); returns the remainder on match. -/
def speakerDigitsColon (l : List Char) : Option (List Char) :=
  if (l.takeWhile Char.isDigit).isEmpty then none
  else
    match l.dropWhile Char.isDigit with
    | ':' :: rest => some (rest.dropWhile pyIsSpace)
    | _ => none

/-- `re.sub(r'^Speaker \d+:\s*', '', text)` — anchored at the start. -/
def removeSpeakerLabel (l : List Char) : List Char :=
  match l with
  | 'S' :: 'p' :: 'e' :: 'a' :: 'k' :: 'e' :: 'r' :: ' ' :: rest =>
    match speakerDigitsColon rest with
    | some r => r
    | none => l
  | _ => l

/-- `clean_subtitle_text` (lambda_function.py lines 140–160): tags, format
codes, leading speaker label, bracket groups, parenthesis groups, then
whitespace collapse and trim, in that order. -/
def clean_subtitle_text (text : List Char) : List Char :=
  pyStrip (collapseWS
    (removeParens (removeBrackets (removeSpeakerLabel
      (removeFormatCodes (removeTags text))))))

/-- `word.endswith(('.', '!', '?'))`. -/
def endsSentence (w : List Char) : Bool :=
  match w.getLast? with
  | some c => c == '.' || c == '!' || c == '?'
  | none => false

/-- The word loop of `add_paragraph_breaks` (lines 176–188): accumulate each
word into `cur` and `len + word.length + 1` into the counter; close the
paragraph when the counter has reached the threshold `t` and the word ends a
sentence; flush a non-empty `cur` after the last word. -/
def breakLoop (t : Nat) : List (List Char) → List (List Char) → Nat → List (List Char)
  | [], cur, _ => if cur.isEmpty then [] else [pyJoin [' '] cur]
  | w :: ws, cur, len =>
    if t ≤ len + w.length + 1 && endsSentence w then
      pyJoin [' '] (cur ++ [w]) :: breakLoop t ws [] 0
    else breakLoop t ws (cur ++ [w]) (len + w.length + 1)

/-- `add_paragraph_breaks` (lines 163–190). -/
def add_paragraph_breaks (text : List Char) (chars_per_paragraph : Nat := 500) :
    List Char :=
  if text.length ≤ chars_per_paragraph then text
  else pyJoin ['\n', '\n'] (breakLoop chars_per_paragraph (pySplitWS text) [] 0)

/-- Engine for `re.split(r'\n\s*\n', text)`.  `acc` holds the current piece,
reversed.  `run = some (runRev, sawTwo, postRev)` means we are inside a
whitespace run that began with a newline: `runRev` is the whole run so far
(reversed), `sawTwo` records whether a second newline has appeared (i.e. the
separator pattern has matched), and `postRev` holds the run's characters
after its last newline (reversed) — greedy `\s*` ends the match at the last
newline of the run, so those characters start the next piece. -/
def sbAux : List Char → List Char → Option (List Char × Bool × List Char) →
    List (List Char)
  | [], acc, none => [acc.reverse]
  | [], acc, some (runRev, sawTwo, postRev) =>
    if sawTwo then [acc.reverse, postRev.reverse]
    else [(runRev ++ acc).reverse]
  | c :: cs, acc, none =>
    if c = '\n' then sbAux cs acc (some ([c], false, []))
    else if pyIsSpace c then sbAux cs (c :: acc) none
    else sbAux cs (c :: acc) none
  | c :: cs, acc, some (runRev, sawTwo, postRev) =>
    if c = '\n' then sbAux cs acc (some (c :: runRev, true, []))
    else if pyIsSpace c then sbAux cs acc (some (c :: runRev, sawTwo, c :: postRev))
    else
      if sawTwo then sbAux cs (c :: postRev) none |>.cons acc.reverse
      else sbAux cs (c :: (runRev ++ acc)) none

/-- `re.split(r'\n\s*\n', text)`. -/
def splitBlocks (l : List Char) : List (List Char) :=
  sbAux l [] none

/-- The body of the block loop in `parse_srt_to_text` (lines 112–128): skip
a block that strips to nothing or has fewer than 3 lines; otherwise join
lines 2+ with spaces, sanitize, and keep the result if non-empty. -/
def extractBlockText (block : List Char) : Option (List Char) :=
  let b := pyStrip block
  if b.isEmpty then none
  else
    let lines := splitOnNl b
    if 3 ≤ lines.length then
      let t := clean_subtitle_text (pyJoin [' '] (lines.drop 2))
      if t.isEmpty then none else some t
    else none

/-- `parse_srt_to_text` (lines 90–137): split the stripped document into
blocks, extract and sanitize each block's text, join with single spaces,
normalize whitespace, and add paragraph breaks with the default threshold
of 500. -/
def parse_srt_to_text (srt_content : List Char) : List Char :=
  let blocks := splitBlocks (pyStrip srt_content)
  let text_lines := blocks.filterMap extractBlockText
  let clean_text := pyStrip (collapseWS (pyJoin [' '] text_lines))
  add_paragraph_breaks clean_text 500

/-- No two adjacent whitespace characters. -/
def noTwoWS : List Char → Bool
  | c1 :: c2 :: rest => (!(pyIsSpace c1 && pyIsSpace c2)) && noTwoWS (c2 :: rest)
  | _ => true

/-- Every run of consecutive whitespace has length 1, except that a run of
exactly two newlines is allowed: any two adjacent whitespace characters are
both newlines, and no whitespace character follows such a pair. -/
def noBadRuns : List Char → Bool
  | c1 :: c2 :: rest =>
    (if pyIsSpace c1 && pyIsSpace c2 then
      c1 == '\n' && c2 == '\n' &&
        (match rest with
         | c3 :: _ => !pyIsSpace c3
         | [] => true)
     else true) && noBadRuns (c2 :: rest)
  | _ => true

/-! ## Basic facts about the regex-removal engines -/

/-- If the closer never occurs, `rdAux` changes nothing: any pending
characters are flushed and every later character is kept. -/
theorem rdAux_no_closer (op cl : Char) :
    ∀ (l : List Char) (st : Option (List Char)), cl ∉ l →
      rdAux op cl l st = (match st with | none => l | some p => p.reverse ++ l) := by
  intro l
  induction l with
  | nil =>
    intro st _
    cases st <;> simp [rdAux]
  | cons c cs ih =>
    intro st h
    have hc : c ≠ cl := fun hc => h (hc ▸ List.mem_cons_self c cs)
    have hcs : cl ∉ cs := fun hm => h (List.mem_cons_of_mem c hm)
    cases st with
    | none =>
      by_cases hop : c = op
      · subst hop
        simp [rdAux, ih _ hcs]
      · simp [rdAux, hop, ih _ hcs]
    | some p =>
      by_cases hnl : c = '\n'
      · subst hnl
        simp [rdAux, hc, ih _ hcs]
      · simp [rdAux, hc, hnl, ih _ hcs]

/-- Inside a candidate group, a stretch of characters containing neither the
closer nor a newline is consumed, and the first closer ends the group. -/
theorem rdAux_scan_to_closer (op cl : Char) (b : List Char) :
    ∀ (m : List Char) (p : List Char), cl ∉ m → '\n' ∉ m →
      rdAux op cl (m ++ cl :: b) (some p) = rdAux op cl b none := by
  intro m
  induction m with
  | nil => intro p _ _; simp [rdAux]
  | cons x m ih =>
    intro p hcl hnl
    have hx : x ≠ cl := fun h => hcl (h ▸ List.mem_cons_self x m)
    have hxn : x ≠ '\n' := fun h => hnl (h ▸ List.mem_cons_self x m)
    have hm : cl ∉ m := fun h => hcl (List.mem_cons_of_mem x h)
    have hmn : '\n' ∉ m := fun h => hnl (List.mem_cons_of_mem x h)
    simp only [List.cons_append, rdAux, if_neg hx, if_neg hxn]
    exact ih _ hm hmn

/-- Shortest-match removal: a prefix free of openers is kept, then the group
from the leftmost opener to the first closer after it (interior free of
closers and newlines) is removed, and scanning resumes after the closer. -/
theorem rdAux_shortest (op cl : Char) :
    ∀ (a m b : List Char), op ∉ a → cl ∉ m → '\n' ∉ m →
      rdAux op cl (a ++ op :: (m ++ cl :: b)) none = a ++ rdAux op cl b none := by
  intro a
  induction a with
  | nil =>
    intro m b _ hm hmn
    simp only [List.nil_append, rdAux, if_pos rfl]
    exact rdAux_scan_to_closer op cl b m [op] hm hmn
  | cons x a ih =>
    intro m b ha hm hmn
    have hx : x ≠ op := fun h => ha (h ▸ List.mem_cons_self x a)
    have ha' : op ∉ a := fun h => ha (List.mem_cons_of_mem x h)
    simp only [List.cons_append, rdAux, if_neg hx, List.append_eq,
      ih m b ha' hm hmn]

/-- If the opener never occurs, `rtAux` (from the outside state) changes
nothing. -/
theorem rtAux_no_opener (op cl : Char) :
    ∀ l : List Char, op ∉ l → rtAux op cl l none = l := by
  intro l
  induction l with
  | nil => intro _; simp [rtAux]
  | cons c cs ih =>
    intro h
    have hc : c ≠ op := fun hc => h (hc ▸ List.mem_cons_self c cs)
    have hcs : op ∉ cs := fun hm => h (List.mem_cons_of_mem c hm)
    simp [rtAux, hc, ih hcs]

/-- An opener immediately followed by the closer is not a group for the
non-empty-interior patterns: both delimiters are kept. -/
theorem rtAux_empty_group (op cl : Char) :
    ∀ (a b : List Char), op ∉ a → op ∉ b →
      rtAux op cl (a ++ op :: cl :: b) none = a ++ op :: cl :: b := by
  intro a
  induction a with
  | nil =>
    intro b _ hb
    simp only [List.nil_append, rtAux, if_pos rfl, List.length_cons,
      List.length_nil, if_pos rfl, List.reverse_cons, List.reverse_nil,
      List.nil_append, rtAux_no_opener op cl b hb]
    simp
  | cons x a ih =>
    intro b ha hb
    have hx : x ≠ op := fun h => ha (h ▸ List.mem_cons_self x a)
    have ha' : op ∉ a := fun h => ha (List.mem_cons_of_mem x h)
    simp [rtAux, hx, ih b ha' hb]

/-! ## Claim theorems: sanitizer behavior -/

/-- C3 counterexample: on the nested input `[a[b]c]` the sanitizer removes
`[a[b]` (leftmost opener to first closer), so the output is `c]` — the
closer `]` that remains was not paired with its nearest preceding opener
(under that pairing the input's brackets nest and everything bracketed,
including the final `]`, would be consumed). -/
theorem claim_C3_counterexample :
    clean_subtitle_text ("[a[b]c]".data) = "c]".data ∧
      ']' ∈ clean_subtitle_text ("[a[b]c]".data) := by
  constructor <;> decide

/-- C3 (amended): the sanitizer removes bracket and parenthesis groups by
non-greedy shortest match: each removed substring runs from the leftmost
unconsumed opener to the first closer after it (newline-free interior), and
any opener between them is consumed by the match rather than paired with
that closer; `Hello [background noise] world (laughs)` sanitizes to
`Hello world`. -/
theorem claim_C3_amended :
    (∀ a m b : List Char, '[' ∉ a → ']' ∉ m → '\n' ∉ m →
      removeBrackets (a ++ '[' :: (m ++ ']' :: b)) = a ++ removeBrackets b) ∧
    (∀ a m b : List Char, '(' ∉ a → ')' ∉ m → '\n' ∉ m →
      removeParens (a ++ '(' :: (m ++ ')' :: b)) = a ++ removeParens b) ∧
    clean_subtitle_text ("Hello [background noise] world (laughs)".data) =
      "Hello world".data := by
  refine ⟨?_, ?_, by decide⟩
  · intro a m b ha hm hmn
    exact rdAux_shortest '[' ']' a m b ha hm hmn
  · intro a m b ha hm hmn
    exact rdAux_shortest '(' ')' a m b ha hm hmn

/-- C3 witness: the amended removal equations evaluated at concrete input. -/
theorem claim_C3_witness :
    ('[' ∉ ("Hi ".data) ∧ ']' ∉ ("noise".data) ∧ '\n' ∉ ("noise".data)) ∧
      removeBrackets ("Hi ".data ++ '[' :: ("noise".data ++ ']' :: " x.".data)) =
        "Hi ".data ++ removeBrackets (" x.".data) :=
  ⟨⟨by decide, by decide, by decide⟩,
    claim_C3_amended.1 ("Hi ".data) ("noise".data) (" x.".data)
      (by decide) (by decide) (by decide)⟩

/-- C4: a text whose length is at or under the threshold is returned
unchanged as the sole paragraph. -/
theorem claim_C4 (text : List Char) (t : Nat) (h : text.length ≤ t) :
    add_paragraph_breaks text t = text := by
  simp [add_paragraph_breaks, h]

/-- C4 witness: a short text with the default threshold 500. -/
theorem claim_C4_witness :
    ("Hello there.".data).length ≤ 500 ∧
      add_paragraph_breaks ("Hello there.".data) 500 = "Hello there.".data :=
  ⟨by decide, claim_C4 ("Hello there.".data) 500 (by decide)⟩

/-- C5: the sanitizer applies its six steps in the fixed order — tag
removal, format-code removal, leading speaker-label removal, bracket
removal, parenthesis removal, then whitespace collapse and trim; in
particular `<i>Hello</i> world` sanitizes to `Hello world` and
`Speaker 1: Welcome back` to `Welcome back`. -/
theorem claim_C5 :
    (∀ t : List Char, clean_subtitle_text t =
      pyStrip (collapseWS (removeParens (removeBrackets (removeSpeakerLabel
        (removeFormatCodes (removeTags t))))))) ∧
    clean_subtitle_text ("<i>Hello</i> world".data) = "Hello world".data ∧
    clean_subtitle_text ("Speaker 1: Welcome back".data) = "Welcome back".data :=
  ⟨fun _ => rfl, by decide, by decide⟩

/-- C10: tag and format-code groups are removed only when non-empty — the
literal `<>` and `\x7b\x7d` pass through — and a bracket or parenthesis
group is removed only when a closer exists: with no closer in the text,
every character (including unmatched openers) is kept. -/
theorem claim_C10 :
    (∀ l : List Char, ']' ∉ l → removeBrackets l = l) ∧
    (∀ l : List Char, ')' ∉ l → removeParens l = l) ∧
    (∀ a b : List Char, '<' ∉ a → '<' ∉ b →
      removeTags (a ++ '<' :: '>' :: b) = a ++ '<' :: '>' :: b) ∧
    (∀ a b : List Char, Char.ofNat 123 ∉ a → Char.ofNat 123 ∉ b →
      removeFormatCodes (a ++ Char.ofNat 123 :: Char.ofNat 125 :: b) =
        a ++ Char.ofNat 123 :: Char.ofNat 125 :: b) ∧
    clean_subtitle_text ("a <> b \x7b\x7d c".data) = "a <> b \x7b\x7d c".data ∧
    clean_subtitle_text ("a [b (c".data) = "a [b (c".data := by
  refine ⟨?_, ?_, ?_, ?_, by decide, by decide⟩
  · intro l h; exact rdAux_no_closer '[' ']' l none h
  · intro l h; exact rdAux_no_closer '(' ')' l none h
  · intro a b ha hb; exact rtAux_empty_group '<' '>' a b ha hb
  · intro a b ha hb
    exact rtAux_empty_group (Char.ofNat 123) (Char.ofNat 125) a b ha hb

/-- C10 witness: the no-closer equation evaluated at a concrete input with
an unmatched opener. -/
theorem claim_C10_witness :
    (']' ∉ ("x[y".data)) ∧ removeBrackets ("x[y".data) = "x[y".data :=
  ⟨by decide, claim_C10.1 ("x[y".data) (by decide)⟩

/-! ## Claim theorems: block handling and end-to-end examples -/

/-- The apostrophe character, used in the end-to-end example text. -/
def apos : Char := Char.ofNat 39

/-- Text line of the second caption block of the end-to-end example. -/
def c7line : List Char :=
  "Today we".data ++ [apos] ++ "ll cover network fundamentals.".data

/-- The three-block SRT document of the end-to-end example. -/
def c7doc : List Char :=
  "1\n00:00:00,000 --> 00:00:03,500\nWelcome to the CCNA course.\n\n2\n00:00:03,500 --> 00:00:07,000\n".data
    ++ c7line
    ++ "\n\n3\n00:00:07,000 --> 00:00:11,500\nThe OSI model has seven layers.\n".data

/-- The expected single-paragraph output of the end-to-end example. -/
def c7expected : List Char :=
  "Welcome to the CCNA course. ".data ++ c7line
    ++ " The OSI model has seven layers.".data

/-- C6: a caption block with fewer than 3 lines contributes nothing to the
output; the two-line document `1\n00:00:00,000 --> 00:00:01,000\n` yields
an empty result. -/
theorem claim_C6 :
    (∀ block : List Char, (splitOnNl (pyStrip block)).length < 3 →
      extractBlockText block = none) ∧
    parse_srt_to_text ("1\n00:00:00,000 --> 00:00:01,000\n".data) = [] := by
  refine ⟨?_, by decide⟩
  intro block h
  unfold extractBlockText
  by_cases hb : (pyStrip block).isEmpty
  · simp [hb]
  · simp [hb, Nat.not_le.mpr h]

/-- C6 witness: the skip equation evaluated on a concrete two-line block. -/
theorem claim_C6_witness :
    (splitOnNl (pyStrip ("1\n00:00:00,000 --> 00:00:01,000".data))).length < 3 ∧
      extractBlockText ("1\n00:00:00,000 --> 00:00:01,000".data) = none :=
  ⟨by decide, claim_C6.1 ("1\n00:00:00,000 --> 00:00:01,000".data) (by decide)⟩

/-- C7: the three-block example document produces the single-paragraph
concatenation of its three text lines, with no newline (hence no double
newline) in the output. -/
theorem claim_C7 :
    parse_srt_to_text c7doc = c7expected ∧ '\n' ∉ parse_srt_to_text c7doc := by
  constructor <;> decide

/-- C8: the transformer is total (it is a Lean function), and an empty or
all-whitespace document yields the empty output string. -/
theorem claim_C8 (s : List Char) (h : ∀ c ∈ s, pyIsSpace c = true) :
    parse_srt_to_text s = [] := by
  have h1 : pyStrip s = [] := by
    have : s.dropWhile pyIsSpace = [] := List.dropWhile_eq_nil_iff.mpr h
    simp [pyStrip, this]
  simp only [parse_srt_to_text, h1]
  decide

/-- C8 witness: a concrete all-whitespace document. -/
theorem claim_C8_witness :
    (∀ c ∈ (" \n\t ".data), pyIsSpace c = true) ∧
      parse_srt_to_text (" \n\t ".data) = [] :=
  ⟨by decide, claim_C8 (" \n\t ".data) (by decide)⟩

/-! ## Words: `str.split()` produces non-empty whitespace-free words -/

/-- A word as produced by `str.split()`: non-empty and whitespace-free. -/
def goodWord (w : List Char) : Prop :=
  w ≠ [] ∧ ∀ c ∈ w, pyIsSpace c = false

theorem splitWSAux_good :
    ∀ (l acc : List Char), (∀ c ∈ acc, pyIsSpace c = false) →
      ∀ w ∈ splitWSAux l acc, goodWord w := by
  intro l
  induction l with
  | nil =>
    intro acc hacc w hw
    by_cases h : acc.isEmpty
    · simp [splitWSAux, h] at hw
    · simp only [splitWSAux, h, Bool.false_eq_true, if_false,
        List.mem_singleton] at hw
      subst hw
      refine ⟨by simpa [List.isEmpty_iff] using h, ?_⟩
      intro c hc
      exact hacc c (List.mem_reverse.mp hc)
  | cons c cs ih =>
    intro acc hacc w hw
    by_cases hc : pyIsSpace c
    · by_cases ha : acc.isEmpty
      · simp only [splitWSAux, hc, ha, if_true] at hw
        exact ih [] (by simp) w hw
      · simp only [splitWSAux, hc, ha, Bool.false_eq_true, if_true,
          if_false, List.mem_cons] at hw
        rcases hw with hw | hw
        · subst hw
          refine ⟨by simpa [List.isEmpty_iff] using ha, ?_⟩
          intro x hx
          exact hacc x (List.mem_reverse.mp hx)
        · exact ih [] (by simp) w hw
    · simp only [splitWSAux, hc, Bool.false_eq_true, if_false] at hw
      refine ih (c :: acc) ?_ w hw
      intro x hx
      rcases List.mem_cons.mp hx with hx | hx
      · subst hx; exact Bool.eq_false_iff.mpr hc
      · exact hacc x hx

theorem pySplitWS_good : ∀ w ∈ pySplitWS l, goodWord w :=
  splitWSAux_good l [] (by simp)

/-- Splitting distributes over any whitespace character: the word being
accumulated is flushed there. -/
theorem splitWSAux_append_ws (csep : Char) (hsep : pyIsSpace csep = true)
    (b : List Char) :
    ∀ (a acc : List Char),
      splitWSAux (a ++ csep :: b) acc = splitWSAux a acc ++ splitWSAux b [] := by
  intro a
  induction a with
  | nil =>
    intro acc
    by_cases h : acc.isEmpty
    · simp [splitWSAux, hsep, h]
    · simp [splitWSAux, hsep, h]
  | cons x a ih =>
    intro acc
    by_cases hx : pyIsSpace x
    · by_cases h : acc.isEmpty
      · simp [splitWSAux, hx, h, ih]
      · simp [splitWSAux, hx, h, ih]
    · simp [splitWSAux, hx, ih]

/-- A whitespace-free stretch extends the accumulated word to a single
output word. -/
theorem splitWSAux_word :
    ∀ (w acc : List Char), (∀ c ∈ w, pyIsSpace c = false) →
      (acc ≠ [] ∨ w ≠ []) → splitWSAux w acc = [acc.reverse ++ w] := by
  intro w
  induction w with
  | nil =>
    intro acc _ hne
    have : acc ≠ [] := by
      rcases hne with h | h
      · exact h
      · exact absurd rfl h
    simp [splitWSAux, List.isEmpty_iff, this]
  | cons c w ih =>
    intro acc hw _
    have hc : pyIsSpace c = false := hw c (List.mem_cons_self c w)
    have hw' : ∀ x ∈ w, pyIsSpace x = false :=
      fun x hx => hw x (List.mem_cons_of_mem c hx)
    simp only [splitWSAux, hc, Bool.false_eq_true, if_false]
    rw [ih (c :: acc) hw' (Or.inl (by simp))]
    simp

theorem pySplitWS_single (w : List Char) (h : goodWord w) : pySplitWS w = [w] := by
  have := splitWSAux_word w [] h.2 (Or.inr h.1)
  simpa [pySplitWS] using this

/-- Splitting a single-space join of good words recovers exactly the words. -/
theorem pySplitWS_join_space :
    ∀ wsl : List (List Char), (∀ w ∈ wsl, goodWord w) →
      pySplitWS (pyJoin [' '] wsl) = wsl := by
  intro wsl
  induction wsl with
  | nil => intro _; simp [pyJoin, pySplitWS, splitWSAux]
  | cons w rest ih =>
    intro h
    have hw : goodWord w := h w (List.mem_cons_self w rest)
    have hrest : ∀ x ∈ rest, goodWord x :=
      fun x hx => h x (List.mem_cons_of_mem w hx)
    cases rest with
    | nil => simpa [pyJoin] using pySplitWS_single w hw
    | cons q qs =>
      have hjoin : pyJoin [' '] (w :: q :: qs) =
          w ++ ' ' :: pyJoin [' '] (q :: qs) := by
        simp [pyJoin]
      rw [hjoin]
      show splitWSAux (w ++ ' ' :: pyJoin [' '] (q :: qs)) [] = w :: q :: qs
      rw [splitWSAux_append_ws ' ' (by decide) _ w []]
      rw [show splitWSAux w [] = pySplitWS w from rfl, pySplitWS_single w hw]
      rw [show splitWSAux (pyJoin [' '] (q :: qs)) [] =
        pySplitWS (pyJoin [' '] (q :: qs)) from rfl]
      rw [ih hrest]
      simp

/-- Splitting a double-newline join splits each piece independently. -/
theorem pySplitWS_join_nl :
    ∀ ps : List (List Char),
      pySplitWS (pyJoin ['\n', '\n'] ps) = (ps.map pySplitWS).flatten := by
  intro ps
  induction ps with
  | nil => simp [pyJoin, pySplitWS, splitWSAux]
  | cons p rest ih =>
    cases rest with
    | nil => simp [pyJoin]
    | cons q qs =>
      have hjoin : pyJoin ['\n', '\n'] (p :: q :: qs) =
          p ++ '\n' :: '\n' :: pyJoin ['\n', '\n'] (q :: qs) := by
        simp [pyJoin]
      rw [hjoin]
      show splitWSAux (p ++ '\n' :: ('\n' :: pyJoin ['\n', '\n'] (q :: qs))) [] =
        ((p :: q :: qs).map pySplitWS).flatten
      rw [splitWSAux_append_ws '\n' (by decide) _ p []]
      have h2 : splitWSAux ('\n' :: pyJoin ['\n', '\n'] (q :: qs)) [] =
          splitWSAux (pyJoin ['\n', '\n'] (q :: qs)) [] := by
        have hnl : pyIsSpace '\n' = true := by decide
        simp [splitWSAux, hnl]
      rw [h2]
      rw [show splitWSAux (pyJoin ['\n', '\n'] (q :: qs)) [] =
        pySplitWS (pyJoin ['\n', '\n'] (q :: qs)) from rfl, ih]
      simp [pySplitWS]

/-- The paragraph loop redistributes the words into paragraphs without
dropping, duplicating, or reordering any: splitting the produced paragraphs
back into words gives the accumulated words followed by the remaining
input words. -/
theorem breakLoop_flatten (t : Nat) :
    ∀ (wsl cur : List (List Char)) (len : Nat),
      (∀ w ∈ wsl, goodWord w) → (∀ w ∈ cur, goodWord w) →
      ((breakLoop t wsl cur len).map pySplitWS).flatten = cur ++ wsl := by
  intro wsl
  induction wsl with
  | nil =>
    intro cur len _ hcur
    by_cases h : cur.isEmpty
    · have : cur = [] := List.isEmpty_iff.mp h
      simp [breakLoop, h, this]
    · simp only [breakLoop, h, Bool.false_eq_true, if_false, List.map_cons,
        List.map_nil, List.flatten_cons, List.flatten_nil, List.append_nil]
      rw [pySplitWS_join_space cur hcur]
  | cons w rest ih =>
    intro cur len hws hcur
    have hw : goodWord w := hws w (List.mem_cons_self w rest)
    have hrest : ∀ x ∈ rest, goodWord x :=
      fun x hx => hws x (List.mem_cons_of_mem w hx)
    have hcur' : ∀ x ∈ cur ++ [w], goodWord x := by
      intro x hx
      rcases List.mem_append.mp hx with hx | hx
      · exact hcur x hx
      · rcases List.mem_singleton.mp hx with rfl; exact hw
    by_cases hbr : (t ≤ len + w.length + 1 && endsSentence w) = true
    · simp only [breakLoop, hbr, if_true, List.map_cons, List.flatten_cons]
      rw [pySplitWS_join_space (cur ++ [w]) hcur']
      rw [ih [] 0 hrest (by simp)]
      simp
    · simp only [breakLoop, hbr, Bool.false_eq_true, if_false]
      rw [ih (cur ++ [w]) (len + w.length + 1) hrest hcur']
      simp

/-- C2: for any text strictly longer than the threshold, the paragraph
re-flow preserves the word stream exactly — splitting the output on
whitespace gives the same words, in the same order, as splitting the
input. -/
theorem claim_C2 (text : List Char) (t : Nat) (h : t < text.length) :
    pySplitWS (add_paragraph_breaks text t) = pySplitWS text := by
  have hnot : ¬ text.length ≤ t := Nat.not_le.mpr h
  simp only [add_paragraph_breaks, hnot, if_false]
  rw [pySplitWS_join_nl]
  simpa using breakLoop_flatten t (pySplitWS text) [] 0 pySplitWS_good (by simp)

/-- C2 witness: the word-preservation equation at a concrete broken text. -/
theorem claim_C2_witness :
    5 < ("Hi bob. Yo yo. End".data).length ∧
      pySplitWS (add_paragraph_breaks ("Hi bob. Yo yo. End".data) 5) =
        pySplitWS ("Hi bob. Yo yo. End".data) :=
  ⟨by decide, claim_C2 ("Hi bob. Yo yo. End".data) 5 (by decide)⟩

/-! ## Paragraph lengths and sentence endings (for the break condition) -/

/-- The value of the running counter after accumulating the words of `l`:
each word contributes its length plus one for the trailing space. -/
def sumLen (l : List (List Char)) : Nat :=
  (l.map (fun w => w.length + 1)).sum

theorem sumLen_append_single (l : List (List Char)) (w : List Char) :
    sumLen (l ++ [w]) = sumLen l + (w.length + 1) := by
  simp [sumLen]

/-- A single-space join is one shorter than the running counter value. -/
theorem pyJoin_space_length :
    ∀ l : List (List Char), l ≠ [] → (pyJoin [' '] l).length + 1 = sumLen l := by
  intro l
  induction l with
  | nil => intro h; exact absurd rfl h
  | cons w rest ih =>
    intro _
    cases rest with
    | nil => simp [pyJoin, sumLen]
    | cons q qs =>
      have : pyJoin [' '] (w :: q :: qs) = w ++ ' ' :: pyJoin [' '] (q :: qs) := by
        simp [pyJoin]
      rw [this]
      have hrec := ih (by simp)
      simp only [List.length_append, List.length_cons]
      simp only [sumLen, List.map_cons, List.sum_cons] at hrec ⊢
      omega

/-- Appending one element to a non-empty join appends a separator and the
element. -/
theorem pyJoin_append_single (sep : List Char) :
    ∀ (l : List (List Char)) (w : List Char), l ≠ [] →
      pyJoin sep (l ++ [w]) = pyJoin sep l ++ sep ++ w := by
  intro l
  induction l with
  | nil => intro w h; exact absurd rfl h
  | cons x rest ih =>
    intro w _
    cases rest with
    | nil => simp [pyJoin]
    | cons q qs =>
      have h1 : pyJoin sep ((x :: q :: qs) ++ [w]) =
          x ++ sep ++ pyJoin sep ((q :: qs) ++ [w]) := by
        simp [pyJoin]
      rw [h1, ih w (by simp)]
      simp [pyJoin]

theorem endsSentence_append (a w : List Char) (h : w ≠ []) :
    endsSentence (a ++ w) = endsSentence w := by
  simp [endsSentence, List.getLast?_append, List.getLast?_eq_none_iff, h]
  cases hw : w.getLast? with
  | none => exact absurd (List.getLast?_eq_none_iff.mp hw) h
  | some c => simp

/-- A closed paragraph ends with the sentence-terminal character of its last
word. -/
theorem endsSentence_join (cur : List (List Char)) (w : List Char)
    (hw : w ≠ []) : endsSentence (pyJoin [' '] (cur ++ [w])) = endsSentence w := by
  cases cur with
  | nil => simp [pyJoin]
  | cons x rest =>
    rw [pyJoin_append_single [' '] (x :: rest) w (by simp)]
    rw [List.append_assoc]
    rw [endsSentence_append (pyJoin [' '] (x :: rest)) ([' '] ++ w)
      (by simp)]
    exact endsSentence_append [' '] w hw

/-- Every paragraph the loop closes at the break condition — i.e. every
produced paragraph except possibly the last — ends in a sentence-terminal
word and satisfies `t ≤ length + 1` (the counter counts one trailing space
beyond the joined length). -/
theorem breakLoop_closed_paras (t : Nat) :
    ∀ (wsl cur : List (List Char)) (len : Nat),
      (∀ w ∈ wsl, goodWord w) → len = sumLen cur →
      ∀ p ∈ (breakLoop t wsl cur len).dropLast,
        endsSentence p = true ∧ t ≤ p.length + 1 := by
  intro wsl
  induction wsl with
  | nil =>
    intro cur len _ _ p hp
    by_cases h : cur.isEmpty
    · simp [breakLoop, h] at hp
    · simp [breakLoop, h] at hp
  | cons w rest ih =>
    intro cur len hws hlen
    have hw : goodWord w := hws w (List.mem_cons_self w rest)
    have hrest : ∀ x ∈ rest, goodWord x :=
      fun x hx => hws x (List.mem_cons_of_mem w hx)
    by_cases hbr : (t ≤ len + w.length + 1 && endsSentence w) = true
    · simp only [breakLoop, hbr, if_true]
      have hbr' : t ≤ len + w.length + 1 ∧ endsSentence w = true := by
        simpa using hbr
      rcases hbr' with ⟨hle, hes⟩
      intro p hp
      cases hL : breakLoop t rest [] 0 with
      | nil => rw [hL] at hp; simp at hp
      | cons y ys =>
        rw [hL, List.dropLast_cons₂, List.mem_cons] at hp
        rcases hp with hp | hp
        · subst hp
          constructor
          · rw [endsSentence_join cur w hw.1]; exact hes
          · have hlen2 := pyJoin_space_length (cur ++ [w]) (by simp)
            rw [sumLen_append_single] at hlen2
            omega
        · have := ih [] 0 hrest (by simp [sumLen])
          rw [hL] at this
          exact this p hp
    · simp only [breakLoop, hbr, Bool.false_eq_true, if_false]
      exact ih (cur ++ [w]) (len + w.length + 1) hrest
        (by rw [sumLen_append_single]; omega)

/-- C9: for a text longer than the threshold, the produced paragraphs are
the loop's paragraphs, and every one of them except possibly the last ends
in `.`, `!` or `?` and has joined length at least `t - 1` (the counter
counts one trailing space beyond the joined length, so the break condition
compares `length + 1` against the threshold). -/
theorem claim_C9 (text : List Char) (t : Nat) (h : t < text.length) :
    add_paragraph_breaks text t =
      pyJoin ['\n', '\n'] (breakLoop t (pySplitWS text) [] 0) ∧
    ∀ p ∈ (breakLoop t (pySplitWS text) [] 0).dropLast,
      endsSentence p = true ∧ t ≤ p.length + 1 := by
  constructor
  · simp [add_paragraph_breaks, Nat.not_le.mpr h]
  · exact breakLoop_closed_paras t (pySplitWS text) [] 0 pySplitWS_good
      (by simp [sumLen])

/-- C9 witness: threshold 5 on a ten-character text; the closed paragraph
`Hi bob.` ends a sentence and satisfies the length bound. -/
theorem claim_C9_witness :
    5 < ("Hi bob. Yo".data).length ∧
      (endsSentence ("Hi bob.".data) = true ∧ 5 ≤ ("Hi bob.".data).length + 1) :=
  ⟨by decide,
    (claim_C9 ("Hi bob. Yo".data) 5 (by decide)).2 ("Hi bob.".data) (by decide)⟩

/-! ## The whitespace invariant of the output -/

theorem noTwoWS_cons_intro (c : Char) (l : List Char)
    (h : ∀ d, l.head? = some d → (pyIsSpace c && pyIsSpace d) = false)
    (hl : noTwoWS l = true) : noTwoWS (c :: l) = true := by
  cases l with
  | nil => simp [noTwoWS]
  | cons d rest =>
    simp only [noTwoWS, Bool.and_eq_true, Bool.not_eq_true']
    exact ⟨h d rfl, hl⟩

theorem noTwoWS_tail (c : Char) (l : List Char) (h : noTwoWS (c :: l) = true) :
    noTwoWS l = true := by
  cases l with
  | nil => simp [noTwoWS]
  | cons d rest =>
    simp only [noTwoWS, Bool.and_eq_true] at h
    exact h.2

theorem noTwoWS_pair (c d : Char) (l : List Char)
    (h : noTwoWS (c :: d :: l) = true) : (pyIsSpace c && pyIsSpace d) = false := by
  simp only [noTwoWS, Bool.and_eq_true, Bool.not_eq_true'] at h
  exact h.1

theorem noTwoWS_of_nows :
    ∀ l : List Char, (∀ c ∈ l, pyIsSpace c = false) → noTwoWS l = true := by
  intro l
  induction l with
  | nil => intro _; rfl
  | cons c cs ih =>
    intro h
    refine noTwoWS_cons_intro c cs ?_ (ih fun x hx => h x (List.mem_cons_of_mem c hx))
    intro d _
    simp [h c (List.mem_cons_self c cs)]

theorem noTwoWS_append (a b : List Char) (ha : noTwoWS a = true)
    (hb : noTwoWS b = true)
    (hab : ∀ x y, a.getLast? = some x → b.head? = some y →
      (pyIsSpace x && pyIsSpace y) = false) :
    noTwoWS (a ++ b) = true := by
  induction a with
  | nil => simpa using hb
  | cons x a ih =>
    cases a with
    | nil =>
      refine noTwoWS_cons_intro x b ?_ hb
      intro d hd
      exact hab x d rfl hd
    | cons x2 a' =>
      have hpair := noTwoWS_pair x x2 a' ha
      have htail : noTwoWS (x2 :: a') = true := noTwoWS_tail x _ ha
      have hlast : ∀ u v, (x2 :: a').getLast? = some u → b.head? = some v →
          (pyIsSpace u && pyIsSpace v) = false := by
        intro u v hu hv
        exact hab u v (by rw [List.getLast?_cons_cons]; exact hu) hv
      refine noTwoWS_cons_intro x ((x2 :: a') ++ b) ?_ (ih htail hlast)
      intro d hd
      simp only [List.cons_append, List.head?_cons, Option.some.injEq] at hd
      subst hd
      exact hpair

theorem noTwoWS_dropWhile (p : Char → Bool) :
    ∀ l : List Char, noTwoWS l = true → noTwoWS (l.dropWhile p) = true := by
  intro l
  induction l with
  | nil => intro _; rfl
  | cons c cs ih =>
    intro h
    by_cases hc : p c
    · rw [List.dropWhile_cons_of_pos hc]
      exact ih (noTwoWS_tail c cs h)
    · rwa [List.dropWhile_cons_of_neg hc]

theorem noTwoWS_reverse :
    ∀ l : List Char, noTwoWS l = true → noTwoWS l.reverse = true := by
  intro l
  induction l with
  | nil => intro _; rfl
  | cons c cs ih =>
    intro h
    rw [List.reverse_cons]
    refine noTwoWS_append cs.reverse [c] (ih (noTwoWS_tail c cs h)) rfl ?_
    intro x y hx hy
    simp only [List.head?_cons, Option.some.injEq] at hy
    subst hy
    rw [List.getLast?_reverse] at hx
    cases cs with
    | nil => simp at hx
    | cons d rest =>
      simp only [List.head?_cons, Option.some.injEq] at hx
      subst hx
      rw [Bool.and_comm]
      exact noTwoWS_pair c d rest h

/-- The whitespace collapse emits no two adjacent whitespace characters. -/
theorem collapseWSAux_head_true :
    ∀ l : List Char, ∀ d, (collapseWSAux true l).head? = some d →
      pyIsSpace d = false := by
  intro l
  induction l with
  | nil => intro d hd; simp [collapseWSAux] at hd
  | cons c cs ih =>
    intro d hd
    by_cases hc : pyIsSpace c
    · rw [show collapseWSAux true (c :: cs) = collapseWSAux true cs by
        simp [collapseWSAux, hc]] at hd
      exact ih d hd
    · rw [show collapseWSAux true (c :: cs) = c :: collapseWSAux false cs by
        simp [collapseWSAux, hc]] at hd
      simp only [List.head?_cons, Option.some.injEq] at hd
      subst hd
      exact Bool.eq_false_iff.mpr hc

theorem collapseWSAux_noTwoWS :
    ∀ (l : List Char) (b : Bool), noTwoWS (collapseWSAux b l) = true := by
  intro l
  induction l with
  | nil => intro b; rfl
  | cons c cs ih =>
    intro b
    by_cases hc : pyIsSpace c
    · cases b with
      | true =>
        rw [show collapseWSAux true (c :: cs) = collapseWSAux true cs by
          simp [collapseWSAux, hc]]
        exact ih true
      | false =>
        rw [show collapseWSAux false (c :: cs) = ' ' :: collapseWSAux true cs by
          simp [collapseWSAux, hc]]
        refine noTwoWS_cons_intro ' ' _ ?_ (ih true)
        intro d hd
        simp [collapseWSAux_head_true cs d hd]
    · rw [show collapseWSAux b (c :: cs) = c :: collapseWSAux false cs by
        simp [collapseWSAux, hc]]
      refine noTwoWS_cons_intro c _ ?_ (ih false)
      intro d _
      simp [Bool.eq_false_iff.mpr hc]

/-- The flat text — whitespace-collapsed then stripped — has no two
adjacent whitespace characters. -/
theorem noTwoWS_strip_collapse (x : List Char) :
    noTwoWS (pyStrip (collapseWS x)) = true := by
  unfold pyStrip collapseWS
  exact noTwoWS_reverse _ (noTwoWS_dropWhile _ _
    (noTwoWS_reverse _ (noTwoWS_dropWhile _ _ (collapseWSAux_noTwoWS x false))))

theorem noBadRuns_cons_intro (c : Char) (l : List Char)
    (h : ∀ d, l.head? = some d → (pyIsSpace c && pyIsSpace d) = false)
    (hl : noBadRuns l = true) : noBadRuns (c :: l) = true := by
  cases l with
  | nil => rfl
  | cons d rest =>
    simp only [noBadRuns, h d rfl, Bool.false_eq_true, if_false,
      Bool.true_and]
    exact hl

theorem noBadRuns_of_noTwoWS :
    ∀ l : List Char, noTwoWS l = true → noBadRuns l = true := by
  intro l
  induction l with
  | nil => intro _; rfl
  | cons c cs ih =>
    intro h
    refine noBadRuns_cons_intro c cs ?_ (ih (noTwoWS_tail c cs h))
    intro d hd
    cases cs with
    | nil => simp at hd
    | cons e rest =>
      simp only [List.head?_cons, Option.some.injEq] at hd
      subst hd
      exact noTwoWS_pair c e rest h

theorem noBadRuns_append_of (a s : List Char) (ha : noTwoWS a = true)
    (hlast : ∀ x, a.getLast? = some x → pyIsSpace x = false)
    (hs : noBadRuns s = true) : noBadRuns (a ++ s) = true := by
  induction a with
  | nil => simpa using hs
  | cons x a ih =>
    cases a with
    | nil =>
      refine noBadRuns_cons_intro x s ?_ hs
      intro d _
      simp [hlast x rfl]
    | cons x2 a' =>
      have hpair := noTwoWS_pair x x2 a' ha
      have htail : noTwoWS (x2 :: a') = true := noTwoWS_tail x _ ha
      have hlast' : ∀ u, (x2 :: a').getLast? = some u → pyIsSpace u = false :=
        fun u hu => hlast u (by rw [List.getLast?_cons_cons]; exact hu)
      refine noBadRuns_cons_intro x ((x2 :: a') ++ s) ?_ (ih htail hlast')
      intro d hd
      simp only [List.cons_append, List.head?_cons, Option.some.injEq] at hd
      subst hd
      exact hpair

/-- Characterization of the run condition at the first two characters. -/
theorem noBadRuns_cons₂_iff (c1 c2 : Char) (l : List Char) :
    noBadRuns (c1 :: c2 :: l) = true ↔
      ((pyIsSpace c1 && pyIsSpace c2) = true →
        c1 = '\n' ∧ c2 = '\n' ∧ ∀ c3 l', l = c3 :: l' → pyIsSpace c3 = false) ∧
      noBadRuns (c2 :: l) = true := by
  by_cases hws : (pyIsSpace c1 && pyIsSpace c2) = true
  · cases l with
    | nil => simp [noBadRuns, hws, and_assoc]
    | cons c3 l' =>
      simp [noBadRuns, hws, and_assoc]
  · simp [noBadRuns, hws]

/-- A double newline followed by non-whitespace (or nothing) is a legal
run. -/
theorem noBadRuns_sep (b : List Char)
    (hhead : ∀ y, b.head? = some y → pyIsSpace y = false)
    (hb : noBadRuns b = true) : noBadRuns ('\n' :: '\n' :: b) = true := by
  have h1 : noBadRuns ('\n' :: b) = true := by
    refine noBadRuns_cons_intro '\n' b ?_ hb
    intro d hd
    simp [hhead d hd]
  refine (noBadRuns_cons₂_iff '\n' '\n' b).mpr ⟨?_, h1⟩
  intro _
  refine ⟨rfl, rfl, ?_⟩
  intro c3 l' hb3
  subst hb3
  exact hhead c3 rfl

/-- The shape of a finished paragraph: non-empty, no two adjacent
whitespace characters, and non-whitespace first and last characters. -/
def goodPara (p : List Char) : Prop :=
  noTwoWS p = true ∧ p ≠ [] ∧
    (∀ x, p.head? = some x → pyIsSpace x = false) ∧
    (∀ x, p.getLast? = some x → pyIsSpace x = false)

theorem head?_mem_of (l : List Char) (x : Char) (h : l.head? = some x) : x ∈ l := by
  cases l with
  | nil => simp at h
  | cons c cs =>
    simp only [List.head?_cons, Option.some.injEq] at h
    subst h
    exact List.mem_cons_self _ _

theorem getLast?_mem_of (l : List Char) (x : Char) (h : l.getLast? = some x) :
    x ∈ l := by
  rw [← List.head?_reverse] at h
  exact List.mem_reverse.mp (head?_mem_of l.reverse x h)

theorem head?_append_left (a b : List Char) (h : a ≠ []) :
    (a ++ b).head? = a.head? := by
  cases a with
  | nil => exact absurd rfl h
  | cons c cs => simp

theorem getLast?_append_right (a b : List Char) (h : b ≠ []) :
    (a ++ b).getLast? = b.getLast? := by
  rw [List.getLast?_append]
  cases hb : b.getLast? with
  | none => exact absurd (List.getLast?_eq_none_iff.mp hb) h
  | some v => simp

/-- A single-space join of good words is a good paragraph. -/
theorem join_space_goodPara :
    ∀ wsl : List (List Char), wsl ≠ [] → (∀ w ∈ wsl, goodWord w) →
      goodPara (pyJoin [' '] wsl) := by
  intro wsl
  induction wsl with
  | nil => intro h _; exact absurd rfl h
  | cons w rest ih =>
    intro _ hgood
    have hw : goodWord w := hgood w (List.mem_cons_self w rest)
    have hrest : ∀ x ∈ rest, goodWord x :=
      fun x hx => hgood x (List.mem_cons_of_mem w hx)
    cases rest with
    | nil =>
      refine ⟨noTwoWS_of_nows w hw.2, hw.1, ?_, ?_⟩
      · exact fun x hx => hw.2 x (head?_mem_of w x hx)
      · exact fun x hx => hw.2 x (getLast?_mem_of w x hx)
    | cons q qs =>
      have hih : goodPara (pyJoin [' '] (q :: qs)) := ih (by simp) hrest
      have hjoin : pyJoin [' '] (w :: q :: qs) =
          w ++ ' ' :: pyJoin [' '] (q :: qs) := by simp [pyJoin]
      rw [hjoin]
      have hmid : noTwoWS (' ' :: pyJoin [' '] (q :: qs)) = true := by
        refine noTwoWS_cons_intro ' ' _ ?_ hih.1
        intro d hd
        simp [hih.2.2.1 d hd]
      refine ⟨?_, by simp [hw.1], ?_, ?_⟩
      · refine noTwoWS_append w _ (noTwoWS_of_nows w hw.2) hmid ?_
        intro x y hx _
        simp [hw.2 x (getLast?_mem_of w x hx)]
      · intro x hx
        rw [head?_append_left w _ hw.1] at hx
        exact hw.2 x (head?_mem_of w x hx)
      · intro x hx
        rw [getLast?_append_right w _ (by simp)] at hx
        rw [show (' ' :: pyJoin [' '] (q :: qs)) =
          [' '] ++ pyJoin [' '] (q :: qs) from rfl] at hx
        rw [getLast?_append_right [' '] _ hih.2.1] at hx
        exact hih.2.2.2 x hx

/-- Every paragraph the loop produces is a good paragraph. -/
theorem breakLoop_paras_good (t : Nat) :
    ∀ (wsl cur : List (List Char)) (len : Nat),
      (∀ w ∈ wsl, goodWord w) → (∀ w ∈ cur, goodWord w) →
      ∀ p ∈ breakLoop t wsl cur len, goodPara p := by
  intro wsl
  induction wsl with
  | nil =>
    intro cur len _ hcur p hp
    by_cases h : cur.isEmpty
    · simp [breakLoop, h] at hp
    · simp only [breakLoop, h, Bool.false_eq_true, if_false,
        List.mem_singleton] at hp
      subst hp
      exact join_space_goodPara cur (by simpa [List.isEmpty_iff] using h) hcur
  | cons w rest ih =>
    intro cur len hws hcur p hp
    have hw : goodWord w := hws w (List.mem_cons_self w rest)
    have hrest : ∀ x ∈ rest, goodWord x :=
      fun x hx => hws x (List.mem_cons_of_mem w hx)
    have hcur' : ∀ x ∈ cur ++ [w], goodWord x := by
      intro x hx
      rcases List.mem_append.mp hx with hx | hx
      · exact hcur x hx
      · rcases List.mem_singleton.mp hx with rfl; exact hw
    by_cases hbr : (t ≤ len + w.length + 1 && endsSentence w) = true
    · simp only [breakLoop, hbr, if_true, List.mem_cons] at hp
      rcases hp with hp | hp
      · subst hp
        exact join_space_goodPara (cur ++ [w]) (by simp) hcur'
      · exact ih [] 0 hrest (by simp) p hp
    · simp only [breakLoop, hbr, Bool.false_eq_true, if_false] at hp
      exact ih (cur ++ [w]) (len + w.length + 1) hrest hcur' p hp

/-- A double-newline join of good paragraphs has only legal whitespace
runs, and starts with a non-whitespace character when non-empty. -/
theorem noBadRuns_join_paras :
    ∀ ps : List (List Char), (∀ p ∈ ps, goodPara p) →
      noBadRuns (pyJoin ['\n', '\n'] ps) = true ∧
      (∀ y, (pyJoin ['\n', '\n'] ps).head? = some y → pyIsSpace y = false) := by
  intro ps
  induction ps with
  | nil => exact fun _ => ⟨rfl, by simp [pyJoin]⟩
  | cons p rest ih =>
    intro h
    have hp : goodPara p := h p (List.mem_cons_self p rest)
    have hrest : ∀ x ∈ rest, goodPara x :=
      fun x hx => h x (List.mem_cons_of_mem p hx)
    cases rest with
    | nil =>
      refine ⟨noBadRuns_of_noTwoWS p hp.1, ?_⟩
      simpa [pyJoin] using hp.2.2.1
    | cons q qs =>
      have hih := ih hrest
      have hjoin : pyJoin ['\n', '\n'] (p :: q :: qs) =
          p ++ '\n' :: '\n' :: pyJoin ['\n', '\n'] (q :: qs) := by
        simp [pyJoin]
      rw [hjoin]
      constructor
      · exact noBadRuns_append_of p _ hp.1 hp.2.2.2
          (noBadRuns_sep _ hih.2 hih.1)
      · intro y hy
        rw [head?_append_left p _ hp.2.1] at hy
        exact hp.2.2.1 y hy

/-- Whatever the input, the paragraph re-flow of a flat text with no two
adjacent whitespace characters satisfies the output whitespace invariant. -/
theorem noBadRuns_apb (flat : List Char) (t : Nat) (h : noTwoWS flat = true) :
    noBadRuns (add_paragraph_breaks flat t) = true := by
  by_cases hle : flat.length ≤ t
  · simp only [add_paragraph_breaks, hle, if_true]
    exact noBadRuns_of_noTwoWS flat h
  · simp only [add_paragraph_breaks, hle, if_false]
    exact (noBadRuns_join_paras _
      (breakLoop_paras_good t (pySplitWS flat) [] 0 pySplitWS_good (by simp))).1

/-- C1: the transformer's output never contains two adjacent whitespace
characters other than the paragraph separator, which is exactly two
newlines: adjacent whitespace characters are both newlines, and no
whitespace character adjoins such a pair. -/
theorem claim_C1 (s : List Char) : noBadRuns (parse_srt_to_text s) = true :=
  noBadRuns_apb _ 500 (noTwoWS_strip_collapse _)
